import Mathlib

/-!
Verification of the core routing / task-dispatch / trading-risk substrate of
the `Securities` broker-simulation repository, as a shallow embedding in Lean.

Numeric values that are Python floats are embedded as rationals (`ℚ`);
positions and quantities are embedded as integers (`ℤ`).  Python dictionaries
with optional keys are embedded as structures with `Option` fields, where
`Option.getD` plays the role of `dict.get(key, default)`.
-/

namespace Securities

/-! ## Order risk assessment (`sales_trading.py`, `_check_trade_risk`) -/

/-- Result record returned by `_check_trade_risk`. -/
structure RiskResult where
  risk_level : String
  reason : String
  current_position : ℤ
  new_position : ℤ
  change_percentage : ℚ
  deriving Repr, DecidableEq

/-- Embedding of `SalesTradingAgent._check_trade_risk`, parameterised by the
current position held for the order's symbol (`trading_positions.get(symbol, 0)`),
the order's side (default `"buy"`) and quantity (default `0`). -/
def checkTradeRisk (current_position : ℤ) (side : String) (quantity : ℤ) :
    RiskResult :=
  let new_position : ℤ :=
    if side = "buy" then current_position + quantity
    else current_position - quantity
  let rl0 : String × String := ("low", "")
  let rl1 : String × String :=
    if 10000 < |new_position| then ("medium", "交易后头寸规模较大") else rl0
  let rl2 : String × String :=
    if 50000 < |new_position| then
      ("high", "交易后头寸规模过大，可能导致过度集中风险")
    else rl1
  let rl3 : String × String :=
    if current_position ≠ 0 ∧
        (1 : ℚ)/2 < |(new_position : ℚ) / (current_position : ℚ) - 1| then
      ("high", "头寸变化幅度过大，超过50%")
    else rl2
  { risk_level := rl3.1
    reason := rl3.2
    current_position := current_position
    new_position := new_position
    change_percentage :=
      if current_position = 0 then 0
      else |(new_position : ℚ) / (current_position : ℚ) - 1| }

/-! ## Transaction cost (`sales_trading.py`, `_calculate_transaction_cost`) -/

/-- Embedding of an order dictionary.  `price = none` means the `"price"` key
is absent; `price = some none` means the key is present with value `None`
(Python's null); `price = some (some p)` is an actual price.  Orders built by
the repository always carry the key (possibly as `None`). -/
structure Order where
  symbol : String
  quantity : Option ℤ
  price : Option (Option ℚ)
  side : Option String
  otype : Option String
  deriving Repr, DecidableEq

/-- Embedding of `SalesTradingAgent._calculate_transaction_cost`:
`price = order.get("price", 0)`, then `if price is None: price = 100`,
then `price * quantity * 0.001`. -/
def calculateTransactionCost (order : Order) : ℚ :=
  let price0 : Option ℚ := order.price.getD (some 0)
  let price : ℚ := price0.getD 100
  let quantity : ℤ := order.quantity.getD 0
  let transaction_amount : ℚ := price * (quantity : ℚ)
  let commission_rate : ℚ := 1/1000
  transaction_amount * commission_rate

/-! ## Message classifier (`broker_agent.py`, `_determine_target_departments`) -/

/-- Python's substring test `p in t`, on the character lists of the strings:
`p` occurs contiguously somewhere in `t`. -/
def hasInfix (p : List Char) : List Char → Bool
  | [] => p.isPrefixOf []
  | c :: t => p.isPrefixOf (c :: t) || hasInfix p t

/-- Number of start positions of `t` at which `p` occurs as a contiguous
substring (the specification side's "count of keyword occurrences"). -/
def occCount (p : List Char) : List Char → ℕ
  | [] => if p.isPrefixOf [] then 1 else 0
  | c :: t => (if p.isPrefixOf (c :: t) then 1 else 0) + occCount p t

/-- Per-department keyword score of `_determine_target_departments`:
`sum(1 for word in words if word in message)` — one point per keyword that
occurs in the message, regardless of how many times it occurs. -/
def deptScore (words : List String) (message : String) : ℕ :=
  words.countP fun w => hasInfix w.data message.data

/-- Specification-side reading of the score as a total occurrence count:
each keyword contributes the number of its occurrences in the message. -/
def totalOccurrences (words : List String) (message : String) : ℕ :=
  (words.map fun w => occCount w.data message.data).sum

/-- The investment-banking keyword set of the static table. -/
def ibKeywords : List String :=
  ["IPO", "上市", "融资", "承销", "并购", "重组", "发行"]

/-- The static keyword table of `_determine_target_departments`, in source
order. -/
def keywordsTable : List (String × List String) :=
  [("investment_banking", ibKeywords),
   ("sales_trading", ["交易", "股票", "债券", "买入", "卖出", "市场", "报价", "做市"]),
   ("research", ["研究", "分析", "报告", "评级", "行业", "趋势", "预测"]),
   ("wealth_management", ["理财", "财富", "资产配置", "投资组合", "个人", "家族"]),
   ("asset_management", ["基金", "资管", "产品", "投资策略", "组合管理"]),
   ("risk_compliance", ["风险", "合规", "监管", "审计", "内控", "法规"]),
   ("executive", ["战略", "合作", "全局", "公司", "发展", "规划"])]

/-- The `scores` dictionary: iterating the table in order, only departments
with positive score are entered (Python dict insertion order). -/
def posScores : List (String × List String) → String → List (String × ℕ)
  | [], _ => []
  | dw :: rest, m =>
    if 0 < deptScore dw.2 m then (dw.1, deptScore dw.2 m) :: posScores rest m
    else posScores rest m

/-- Maximum keyword score over the whole table (0 when nothing matches). -/
def maxScoreAll : List (String × List String) → String → ℕ
  | [], _ => 0
  | dw :: rest, m => max (deptScore dw.2 m) (maxScoreAll rest m)

/-- Embedding of `_determine_target_departments` over an arbitrary table:
empty `scores` falls back to `["executive"]`, otherwise every department
tied for the maximum positive score is returned, in table order. -/
def classifyTable (table : List (String × List String)) (message : String) :
    List String :=
  let sc := posScores table message
  if sc = [] then ["executive"]
  else
    let mx := (sc.map Prod.snd).foldr max 0
    (sc.filter fun x => x.2 == mx).map Prod.fst

/-- Embedding of `BrokerAgent._determine_target_departments`. -/
def determineTargetDepartments (message : String) : List String :=
  classifyTable keywordsTable message

/-- An order whose dictionary carries no `"price"` key at all. -/
def orderNoPriceKey : Order :=
  { symbol := "X", quantity := some 10, price := none,
    side := some "buy", otype := some "market" }

/-! ## Task queue (`sub_agent.py`, `process_tasks`) -/

/-- The task-queue state of a department: the pending list and the completed
log (each completed entry records the task, its result and a timestamp),
as in `BrokerSubAgent`. -/
structure TaskState (τ ρ : Type) where
  pending_tasks : List τ
  completed_tasks : List (τ × ρ × String)

/-- The loop body of `process_tasks` over the pending list, in original
order: admitted tasks contribute a result and a completed entry, non-admitted
tasks are kept.  Returns (results, remaining pending, completed additions). -/
def processTasksAux {τ ρ : Type} (canProcess : τ → Bool) (handle : τ → ρ)
    (timestamp : τ → String) :
    List τ → List ρ × List τ × List (τ × ρ × String)
  | [] => ([], [], [])
  | t :: rest =>
    let r := processTasksAux canProcess handle timestamp rest
    if canProcess t then
      (handle t :: r.1, r.2.1, (t, handle t, timestamp t) :: r.2.2)
    else (r.1, t :: r.2.1, r.2.2)

/-- Embedding of `BrokerSubAgent.process_tasks`, parameterised by the
admission predicate `_can_process_task`, the domain handler `_process_task`
and the per-task completion timestamp. -/
def processTasks {τ ρ : Type} (canProcess : τ → Bool) (handle : τ → ρ)
    (timestamp : τ → String) (s : TaskState τ ρ) : List ρ × TaskState τ ρ :=
  match s.pending_tasks with
  | [] => ([], s)
  | t :: rest =>
    let r := processTasksAux canProcess handle timestamp (t :: rest)
    (r.1, { pending_tasks := r.2.1,
            completed_tasks := s.completed_tasks ++ r.2.2 })

/-! ## Fund transfer (`broker_agent.py`, `transfer_funds`) -/

/-- A transaction record shared by sender and recipient histories. -/
structure Txn where
  source : String
  target : String
  amount : ℚ
  description : String
  timestamp : String
  deriving Repr, DecidableEq

/-- The per-agent state touched by `transfer_funds`. -/
structure PartyState where
  id : String
  balance : ℚ
  transaction_history : List Txn
  deriving Repr, DecidableEq

/-- The value returned by `transfer_funds`: `(False, reason)` or
`(True, transaction)`. -/
inductive TransferOutcome where
  | failure (reason : String)
  | success (txn : Txn)
  deriving Repr, DecidableEq

/-- Embedding of `BrokerAgent.transfer_funds` acting on the sender's and the
recipient's state. -/
def transferFunds (sender recipient : PartyState) (amount : ℚ)
    (description timestamp : String) :
    TransferOutcome × PartyState × PartyState :=
  if amount ≤ 0 then (.failure "转账金额必须为正数", sender, recipient)
  else if sender.balance < amount then (.failure "余额不足", sender, recipient)
  else
    let txn : Txn :=
      { source := sender.id, target := recipient.id, amount := amount,
        description := description, timestamp := timestamp }
    (.success txn,
     { sender with balance := sender.balance - amount,
                   transaction_history := sender.transaction_history ++ [txn] },
     { recipient with balance := recipient.balance + amount,
                      transaction_history :=
                        recipient.transaction_history ++ [txn] })

/-! ## Internal network (`internal_network.py`) -/

/-- Association-list lookup, embedding Python dictionary access. -/
def alookup {κ ν : Type} [DecidableEq κ] : List (κ × ν) → κ → Option ν
  | [], _ => none
  | kv :: rest, k => if kv.1 = k then some kv.2 else alookup rest k

/-- Association-list update, embedding Python `d[k] = v`: replaces the value
of an existing key in place, otherwise appends (insertion order). -/
def aset {κ ν : Type} [DecidableEq κ] : List (κ × ν) → κ → ν → List (κ × ν)
  | [], k, v => [(k, v)]
  | kv :: rest, k, v =>
    if kv.1 = k then (k, v) :: rest else kv :: aset rest k v

/-- Association-list deletion, embedding Python `del d[k]`. -/
def adel {κ ν : Type} [DecidableEq κ] (l : List (κ × ν)) (k : κ) :
    List (κ × ν) :=
  l.filter fun kv => decide (kv.1 ≠ k)

/-- A message dictionary, as far as `record_communication` inspects it:
an opaque payload plus an optional `"timestamp"` entry. -/
structure Message where
  payload : String
  timestamp : Option String
  deriving Repr, DecidableEq

/-- One entry of the append-only communication history. -/
structure CommRecord where
  source : String
  target : String
  message : Message
  timestamp : String
  deriving Repr, DecidableEq

/-- Embedding of `InternalNetwork`: the directed graph (node list plus edge
list, as maintained by networkx), the two edge-metadata dictionaries, and
the communication history. -/
structure InternalNetwork where
  nodes : List String
  edges : List (String × String)
  communication_frequency : List ((String × String) × ℚ)
  communication_priority : List ((String × String) × ℚ)
  communication_history : List CommRecord
  deriving Repr, DecidableEq

/-- The empty network built by `InternalNetwork.__init__`. -/
def emptyNetwork : InternalNetwork :=
  { nodes := [], edges := [], communication_frequency := [],
    communication_priority := [], communication_history := [] }

/-- networkx `add_node`: adding an existing node is a no-op. -/
def addNodeIfAbsent (nodes : List String) (n : String) : List String :=
  if n ∈ nodes then nodes else nodes ++ [n]

/-- networkx `add_edge`: adds both endpoints as nodes and the directed edge
(idempotent on the edge set). -/
def addEdgeToGraph (nodes : List String) (edges : List (String × String))
    (source target : String) : List String × List (String × String) :=
  (addNodeIfAbsent (addNodeIfAbsent nodes source) target,
   if (source, target) ∈ edges then edges else edges ++ [(source, target)])

/-- Embedding of `InternalNetwork.add_division`. -/
def addDivision (net : InternalNetwork) (division_name : String) :
    InternalNetwork :=
  { net with nodes := addNodeIfAbsent net.nodes division_name }

/-- Embedding of `InternalNetwork.add_connection`. -/
def addConnection (net : InternalNetwork) (source target : String)
    (bidirectional : Bool) (frequency priority : ℚ) : InternalNetwork :=
  let g1 := addEdgeToGraph net.nodes net.edges source target
  let n1 : InternalNetwork :=
    { net with
      nodes := g1.1
      edges := g1.2
      communication_frequency :=
        aset net.communication_frequency (source, target) frequency
      communication_priority :=
        aset net.communication_priority (source, target) priority }
  if bidirectional = true then
    let g2 := addEdgeToGraph n1.nodes n1.edges target source
    { n1 with
      nodes := g2.1
      edges := g2.2
      communication_frequency :=
        aset n1.communication_frequency (target, source) frequency
      communication_priority :=
        aset n1.communication_priority (target, source) priority }
  else n1

/-- Embedding of `InternalNetwork.remove_connection`: the forward direction
is removed when present; the reverse direction is removed only when
`bidirectional` removal is requested (and that edge exists). -/
def removeConnection (net : InternalNetwork) (source target : String)
    (bidirectional : Bool) : InternalNetwork :=
  let n1 : InternalNetwork :=
    if (source, target) ∈ net.edges then
      { net with
        edges := net.edges.filter fun e => decide (e ≠ (source, target))
        communication_frequency :=
          adel net.communication_frequency (source, target)
        communication_priority :=
          adel net.communication_priority (source, target) }
    else net
  if bidirectional = true ∧ (target, source) ∈ n1.edges then
    { n1 with
      edges := n1.edges.filter fun e => decide (e ≠ (target, source))
      communication_frequency :=
        adel n1.communication_frequency (target, source)
      communication_priority :=
        adel n1.communication_priority (target, source) }
  else n1

/-- Embedding of `InternalNetwork.record_communication`: appends one history
record (with the message's own timestamp, defaulting to `""`), then, if the
edge is tracked in the frequency dictionary, nudges its frequency by `+0.01`,
clamped to `1.0`. -/
def recordCommunication (net : InternalNetwork) (source target : String)
    (message : Message) : InternalNetwork :=
  let net1 : InternalNetwork :=
    { net with
      communication_history := net.communication_history ++
        [{ source := source, target := target, message := message,
           timestamp := message.timestamp.getD "" }] }
  match alookup net1.communication_frequency (source, target) with
  | some f =>
    { net1 with
      communication_frequency :=
        aset net1.communication_frequency (source, target)
          (min 1 (f + 1/100)) }
  | none => net1

/-- A two-node network with a single tracked edge `a → b`, built by the
constructor operations. -/
def sampleNetwork : InternalNetwork :=
  addConnection (addDivision (addDivision emptyNetwork "a") "b") "a" "b"
    false 1 1

/-- A sample message with no `"timestamp"` entry. -/
def sampleMessage : Message :=
  { payload := "hello", timestamp := none }

/-- A two-node network with no edges at all: both endpoints exist but are
disconnected. -/
def disconnectedNetwork : InternalNetwork :=
  addDivision (addDivision emptyNetwork "a") "b"

/-! ## Communication paths (`internal_network.py`, `get_communication_path`) -/

/-- Successors of a node in the directed edge list. -/
def successors (E : List (String × String)) (s : String) : List String :=
  (E.filter fun e => decide (e.1 = s)).map Prod.snd

/-- First `some` produced by `f` along a list, if any. -/
def firstSome {α β : Type} (f : α → Option β) : List α → Option β
  | [] => none
  | x :: xs =>
    match f x with
    | some b => some b
    | none => firstSome f xs

/-- Fuelled depth-first path search avoiding the `visited` list.  Returns
a directed path from `s` to `t` (inclusive) when one exists within the
fuel bound. -/
def findPath (E : List (String × String)) :
    ℕ → List String → String → String → Option (List String)
  | 0, _, _, _ => none
  | Nat.succ n, visited, s, t =>
    if s = t then some [s]
    else
      firstSome
        (fun v => (findPath E n (s :: visited) v t).map fun q => s :: q)
        ((successors E s).filter fun v => decide (v ∉ visited))

/-- Every node of every directed path starting at `s` lies in this list. -/
def nodeSupport (E : List (String × String)) (s : String) : List String :=
  s :: (E.map Prod.fst ++ E.map Prod.snd)

/-- Modelled from the library contract of `networkx.shortest_path` on an
unweighted directed graph, which the repository calls but does not define:
it returns a directed path from `source` to `target` when one exists and
raises `NetworkXNoPath` (here: `none`) when none does.  Only this
success/failure contract — not minimality of the returned path — is relied
on by the claims, so the model performs an exhaustive fuelled search. -/
def shortestPathSearch (E : List (String × String)) (source target : String) :
    Option (List String) :=
  findPath E (nodeSupport E source).length [] source target

/-- Embedding of `InternalNetwork.get_communication_path`: `[]` when either
endpoint is missing, the found path on success, and `[]` again when the
path search fails (the `NetworkXNoPath` exception is swallowed). -/
def getCommunicationPath (net : InternalNetwork) (source target : String) :
    List String :=
  if source ∈ net.nodes ∧ target ∈ net.nodes then
    match shortestPathSearch net.edges source target with
    | some p => p
    | none => []
  else []

/-- `p` is a directed path from `s` to `t` over the edge list `E`:
nonempty, starting at `s`, ending at `t`, with every consecutive pair an
edge. -/
def IsPathFrom (E : List (String × String)) (s t : String)
    (p : List String) : Prop :=
  p.head? = some s ∧ p.getLast? = some t ∧ List.Chain' (fun a b => (a, b) ∈ E) p

/-- `t` is reachable from `s` along directed edges of `E`. -/
def Reachable (E : List (String × String)) (s t : String) : Prop :=
  ∃ p, IsPathFrom E s t p

/-! ## Market-making quote adjustment (`sales_trading.py`,
`_adjust_market_making`) -/

/-- One entry of `market_making_securities`, as created by
`_handle_market_making` (`bid`/`ask` may be null; `last_update` is only
added by an adjustment). -/
structure MarketMakingEntry where
  symbol : String
  status : String
  bid : Option ℚ
  ask : Option ℚ
  bid_size : ℤ
  ask_size : ℤ
  start_time : String
  last_update : Option String
  deriving Repr, DecidableEq

/-- A market-update security as read by `_adjust_market_making`
(`dict.get` defaults 0 for price and price change). -/
structure Security where
  symbol : String
  price : Option ℚ
  price_change : Option ℚ
  deriving Repr, DecidableEq

/-- Embedding of `SalesTradingAgent._adjust_market_making`: find the first
actively quoted entry for the security's symbol, widen the spread with the
price move, recentre bid/ask around the price, stamp the update, and stop
(`break`); leave the quote list untouched when no active entry matches. -/
def adjustMarketMaking :
    List MarketMakingEntry → Security → String → List MarketMakingEntry
  | [], _, _ => []
  | e :: rest, security, now =>
    if e.symbol = security.symbol ∧ e.status = "active" then
      let price := security.price.getD 0
      let price_change := security.price_change.getD 0
      let spread := max (1/100) |price * (2/1000) * (1 + |price_change| * 10)|
      { e with bid := some (price - spread / 2),
               ask := some (price + spread / 2),
               last_update := some now } :: rest
    else e :: adjustMarketMaking rest security now

/-- An active quote entry for `"AAPL"`. -/
def sampleEntry : MarketMakingEntry :=
  { symbol := "AAPL", status := "active", bid := none, ask := none,
    bid_size := 1000, ask_size := 1000, start_time := "t0",
    last_update := none }

/-- A market update for `"AAPL"`. -/
def sampleSecurity : Security :=
  { symbol := "AAPL", price := some 100, price_change := some 0 }

end Securities

namespace Securities

/-! ## Theorems about the risk engine -/

/-- C1: `_check_trade_risk` computes the new position additively by side and
assigns the risk level with the percentage-change rule taking precedence over
the two size thresholds; the two concrete scenarios from the specification
evaluate as stated. -/
theorem checkTradeRisk_spec :
    (∀ p q : ℤ, (checkTradeRisk p "buy" q).new_position = p + q) ∧
    (∀ p q : ℤ, (checkTradeRisk p "sell" q).new_position = p - q) ∧
    (∀ (p : ℤ) (side : String) (q : ℤ),
      (checkTradeRisk p side q).risk_level =
        (if p ≠ 0 ∧ (1 : ℚ)/2 <
            |((checkTradeRisk p side q).new_position : ℚ) / (p : ℚ) - 1| then
          "high"
        else if 50000 < |(checkTradeRisk p side q).new_position| then "high"
        else if 10000 < |(checkTradeRisk p side q).new_position| then "medium"
        else "low")) ∧
    (checkTradeRisk 0 "buy" 60000).risk_level = "high" ∧
    (checkTradeRisk 20000 "sell" 15000).new_position = 5000 ∧
    (checkTradeRisk 20000 "sell" 15000).risk_level = "high" := by
  refine ⟨fun p q => rfl, fun p q => by simp [checkTradeRisk], ?_, ?_, ?_, ?_⟩
  · intro p side q
    simp only [checkTradeRisk]
    split_ifs <;> rfl
  · decide
  · decide
  · simp only [checkTradeRisk]
    rw [if_neg (by decide : ¬ ("sell" = "buy"))]
    split_ifs with h h2 h3 <;>
      first
      | rfl
      | exact absurd
          ⟨by decide, lt_of_lt_of_le (by push_cast; norm_num) (neg_le_abs _)⟩ h

/-! ## Theorems about the transaction cost -/

/-- C6 is false as stated: an order with no price key at all is costed at
`0 * quantity * 0.001 = 0` (the `dict.get` default is `0`, not `None`), not
at `100 * quantity * 0.001`. -/
theorem calculateTransactionCost_missing_price_counterexample :
    calculateTransactionCost orderNoPriceKey = 0 ∧
    (100 : ℚ) * (10 : ℚ) * (1/1000) = 1 ∧
    (0 : ℚ) ≠ 1 := by
  refine ⟨?_, by norm_num, by norm_num⟩
  simp [calculateTransactionCost, orderNoPriceKey]

/-- C6 (amended): the cost is `p * quantity * 0.001` where `p` is the order's
price when one is present, `100` when the price field is explicitly null, and
`0` when the `"price"` key is absent altogether. -/
theorem calculateTransactionCost_spec :
    ∀ order : Order,
      calculateTransactionCost order =
        (match order.price with
         | none => 0
         | some none => 100
         | some (some p) => p) * ((order.quantity.getD 0 : ℤ) : ℚ) * (1/1000) := by
  intro order
  rcases order with ⟨s, q, pr, sd, ty⟩
  rcases pr with _ | pr
  · simp [calculateTransactionCost]
  · rcases pr with _ | p <;> simp [calculateTransactionCost, mul_assoc]

/-! ## Theorems about the message classifier -/

/-- A pattern occurs somewhere in a text iff its occurrence count is
positive. -/
lemma hasInfix_iff_occCount (p t : List Char) :
    hasInfix p t = true ↔ 0 < occCount p t := by
  induction t with
  | nil =>
    by_cases h : p.isPrefixOf [] = true <;> simp [hasInfix, occCount, h]
  | cons c t ih =>
    by_cases h : p.isPrefixOf (c :: t) = true <;>
      simp [hasInfix, occCount, h, ih]

/-- The score counts each keyword at most once: it equals the number of
keywords whose occurrence count in the message is positive. -/
lemma deptScore_eq_countP_occ (words : List String) (m : String) :
    deptScore words m =
      words.countP fun w => decide (0 < occCount w.data m.data) := by
  unfold deptScore
  exact List.countP_congr fun w _ => by simp [hasInfix_iff_occCount]

/-- C2 is false as stated: on the investment-banking keyword set and the
message `"IPO IPO"`, the keyword `"IPO"` occurs twice but the score is 1,
not the total occurrence count 2. -/
theorem deptScore_ne_totalOccurrences :
    deptScore ibKeywords "IPO IPO" ≠ totalOccurrences ibKeywords "IPO IPO" ∧
    deptScore ibKeywords "IPO IPO" = 1 ∧
    totalOccurrences ibKeywords "IPO IPO" = 2 := by
  refine ⟨by decide, by decide, by decide⟩

/-- C2 (amended): the score for a department equals the number of its
keywords that occur at least once as a substring of the text (case-sensitive,
no normalization); a keyword occurring `k ≥ 1` times contributes 1, not `k`. -/
theorem deptScore_spec :
    (∀ (words : List String) (message : String),
      deptScore words message =
        words.countP fun w => decide (0 < occCount w.data message.data)) ∧
    deptScore ibKeywords "IPO IPO" = 1 := by
  exact ⟨deptScore_eq_countP_occ, by decide⟩

/-- The fold over the positive scores computes the maximum score of the whole
table (departments scoring 0 cannot affect a maximum seeded at 0). -/
lemma foldr_max_posScores (table : List (String × List String)) (m : String) :
    ((posScores table m).map Prod.snd).foldr max 0 = maxScoreAll table m := by
  induction table with
  | nil => rfl
  | cons dw rest ih =>
    by_cases h : 0 < deptScore dw.2 m
    · simp only [posScores]
      rw [if_pos h]
      simp only [List.map_cons, List.foldr_cons, ih, maxScoreAll]
    · have h0 : deptScore dw.2 m = 0 := Nat.eq_zero_of_not_pos h
      simp only [posScores]
      rw [if_neg h, ih]
      simp [maxScoreAll, h0, Nat.zero_max]

/-- `scores` is empty exactly when every department scores 0. -/
lemma posScores_eq_nil_iff (table : List (String × List String)) (m : String) :
    posScores table m = [] ↔ maxScoreAll table m = 0 := by
  induction table with
  | nil => simp [posScores, maxScoreAll]
  | cons dw rest ih =>
    by_cases h : 0 < deptScore dw.2 m
    · simp only [posScores]
      rw [if_pos h]
      simp [maxScoreAll, Nat.max_eq_zero_iff]
      omega
    · have h0 : deptScore dw.2 m = 0 := Nat.eq_zero_of_not_pos h
      simp only [posScores]
      rw [if_neg h, ih]
      simp [maxScoreAll, h0, Nat.zero_max]

/-- Filtering the positive scores at a nonzero level agrees with filtering
the whole table at that level. -/
lemma posScores_filter_eq (table : List (String × List String)) (m : String)
    (mx : ℕ) (hmx : mx ≠ 0) :
    ((posScores table m).filter fun x => x.2 == mx).map Prod.fst =
      (table.filter fun dw => deptScore dw.2 m == mx).map Prod.fst := by
  induction table with
  | nil => rfl
  | cons dw rest ih =>
    by_cases h : 0 < deptScore dw.2 m
    · simp only [posScores]
      rw [if_pos h]
      by_cases he : deptScore dw.2 m = mx
      · simp [List.filter_cons, he, ih]
      · simp [List.filter_cons, he, ih]
    · have h0 : deptScore dw.2 m = 0 := Nat.eq_zero_of_not_pos h
      simp only [posScores]
      rw [if_neg h, ih]
      have hne : ¬ (deptScore dw.2 m == mx) = true := by
        simp only [beq_iff_eq, h0]
        omega
      simp [List.filter_cons, hne]

/-- The classifier, over any table, returns the default coordinating
department when all scores are 0, and otherwise every department tied for
the maximum score, in table order. -/
lemma classifyTable_eq (table : List (String × List String)) (m : String) :
    classifyTable table m =
      if maxScoreAll table m = 0 then ["executive"]
      else (table.filter fun dw =>
        deptScore dw.2 m == maxScoreAll table m).map Prod.fst := by
  simp only [classifyTable]
  by_cases hP : posScores table m = []
  · rw [if_pos hP, if_pos ((posScores_eq_nil_iff table m).mp hP)]
  · have hmx : maxScoreAll table m ≠ 0 :=
      fun h => hP ((posScores_eq_nil_iff table m).mpr h)
    rw [if_neg hP, if_neg hmx, foldr_max_posScores,
      posScores_filter_eq table m _ hmx]

/-- C3: classification is a pure function of the text; departments scoring 0
are excluded, all departments tied for the maximum score are returned, and
when every score is 0 the default coordinating department is returned.  On
`"we plan an IPO listing"` only the investment-banking keyword set matches
and the result is exactly `["investment_banking"]`. -/
theorem determineTargetDepartments_spec :
    (∀ message : String,
      determineTargetDepartments message =
        if maxScoreAll keywordsTable message = 0 then ["executive"]
        else (keywordsTable.filter fun dw =>
          deptScore dw.2 message == maxScoreAll keywordsTable message).map
            Prod.fst) ∧
    determineTargetDepartments "we plan an IPO listing" =
      ["investment_banking"] := by
  exact ⟨fun m => classifyTable_eq keywordsTable m, by decide⟩

/-! ## Theorems about the task queue -/

/-- The processing loop is a stable partition of the pending list by the
admission predicate. -/
lemma processTasksAux_eq {τ ρ : Type} (canProcess : τ → Bool) (handle : τ → ρ)
    (timestamp : τ → String) :
    ∀ l : List τ,
      processTasksAux canProcess handle timestamp l =
        ((l.filter canProcess).map handle,
         l.filter fun t => !(canProcess t),
         (l.filter canProcess).map fun t => (t, handle t, timestamp t)) := by
  intro l
  induction l with
  | nil => rfl
  | cons t rest ih =>
    cases h : canProcess t <;>
      simp [processTasksAux, ih, List.filter_cons, h]

/-- Filtering by a predicate and by its negation splits the length. -/
lemma length_filter_add_length_filter_not {τ : Type} (p : τ → Bool) :
    ∀ l : List τ,
      (l.filter fun t => !(p t)).length + (l.filter p).length = l.length := by
  intro l
  induction l with
  | nil => rfl
  | cons t rest ih =>
    cases h : p t <;> simp [List.filter_cons, h] <;> omega

/-- C4: one round of `process_tasks` is a stable partition of the pending
list: admitted tasks (in original order) are handled, their results returned
and appended to the completed log with a timestamp; non-admitted tasks remain
pending in their original relative order; no task is dropped or duplicated. -/
theorem processTasks_stable_partition {τ ρ : Type} (canProcess : τ → Bool)
    (handle : τ → ρ) (timestamp : τ → String) (s : TaskState τ ρ) :
    (processTasks canProcess handle timestamp s).2.pending_tasks =
        (s.pending_tasks.filter fun t => !(canProcess t)) ∧
    (processTasks canProcess handle timestamp s).2.completed_tasks =
        s.completed_tasks ++
          (s.pending_tasks.filter canProcess).map
            (fun t => (t, handle t, timestamp t)) ∧
    (processTasks canProcess handle timestamp s).1 =
        (s.pending_tasks.filter canProcess).map handle ∧
    (processTasks canProcess handle timestamp s).2.pending_tasks.length +
        (s.pending_tasks.filter canProcess).length =
      s.pending_tasks.length := by
  rcases s with ⟨pending, completed⟩
  cases pending with
  | nil => simp [processTasks]
  | cons t rest =>
    refine ⟨by simp only [processTasks, processTasksAux_eq],
      by simp only [processTasks, processTasksAux_eq],
      by simp only [processTasks, processTasksAux_eq], ?_⟩
    simp only [processTasks, processTasksAux_eq]
    exact length_filter_add_length_filter_not canProcess _

/-! ## Theorems about fund transfer -/

/-- C10: `transfer_funds` rejects non-positive amounts and insufficient
balance without touching either party's state, and otherwise moves exactly
`amount` from sender to recipient (preserving the sum of the two balances)
while appending the same transaction record to both histories. -/
theorem transferFunds_spec (sender recipient : PartyState) (amount : ℚ)
    (description timestamp : String) :
    (amount ≤ 0 →
      transferFunds sender recipient amount description timestamp =
        (.failure "转账金额必须为正数", sender, recipient)) ∧
    (0 < amount → sender.balance < amount →
      transferFunds sender recipient amount description timestamp =
        (.failure "余额不足", sender, recipient)) ∧
    (0 < amount → amount ≤ sender.balance →
      (transferFunds sender recipient amount description timestamp).2.1.balance
          = sender.balance - amount ∧
      (transferFunds sender recipient amount description timestamp).2.2.balance
          = recipient.balance + amount ∧
      (transferFunds sender recipient amount description timestamp).2.1.balance
          + (transferFunds sender recipient amount description
              timestamp).2.2.balance
          = sender.balance + recipient.balance ∧
      ∃ t : Txn,
        (transferFunds sender recipient amount description timestamp).1 =
            .success t ∧
        (transferFunds sender recipient amount description
            timestamp).2.1.transaction_history =
          sender.transaction_history ++ [t] ∧
        (transferFunds sender recipient amount description
            timestamp).2.2.transaction_history =
          recipient.transaction_history ++ [t]) := by
  refine ⟨?_, ?_, ?_⟩
  · intro h
    simp [transferFunds, if_pos h]
  · intro h1 h2
    simp only [transferFunds, if_neg (not_le.mpr h1), if_pos h2]
  · intro h1 h2
    have he : transferFunds sender recipient amount description timestamp =
        (.success
          { source := sender.id, target := recipient.id, amount := amount,
            description := description, timestamp := timestamp },
         { sender with balance := sender.balance - amount,
                       transaction_history := sender.transaction_history ++
                         [{ source := sender.id, target := recipient.id,
                            amount := amount, description := description,
                            timestamp := timestamp }] },
         { recipient with balance := recipient.balance + amount,
                          transaction_history :=
                            recipient.transaction_history ++
                              [{ source := sender.id, target := recipient.id,
                                 amount := amount,
                                 description := description,
                                 timestamp := timestamp }] }) := by
      unfold transferFunds
      rw [if_neg (not_le.mpr h1), if_neg (not_lt.mpr h2)]
    rw [he]
    refine ⟨rfl, rfl, ?_, _, rfl, rfl, rfl⟩
    show sender.balance - amount + (recipient.balance + amount) =
      sender.balance + recipient.balance
    ring

/-- Witness for C10 at a concrete transfer: sender `"s"` with balance 50
sends 30 to recipient `"r"` with balance 10. -/
theorem transferFunds_spec_witness :
    (0 : ℚ) < 30 ∧ (30 : ℚ) ≤ 50 ∧
    ((transferFunds { id := "s", balance := 50, transaction_history := [] }
        { id := "r", balance := 10, transaction_history := [] }
        30 "margin call" "2024-01-01").2.1.balance = 50 - 30 ∧
     (transferFunds { id := "s", balance := 50, transaction_history := [] }
        { id := "r", balance := 10, transaction_history := [] }
        30 "margin call" "2024-01-01").2.2.balance = 10 + 30 ∧
     (transferFunds { id := "s", balance := 50, transaction_history := [] }
        { id := "r", balance := 10, transaction_history := [] }
        30 "margin call" "2024-01-01").2.1.balance +
       (transferFunds { id := "s", balance := 50, transaction_history := [] }
          { id := "r", balance := 10, transaction_history := [] }
          30 "margin call" "2024-01-01").2.2.balance = 50 + 10 ∧
     ∃ t : Txn,
       (transferFunds { id := "s", balance := 50, transaction_history := [] }
          { id := "r", balance := 10, transaction_history := [] }
          30 "margin call" "2024-01-01").1 = .success t ∧
       (transferFunds { id := "s", balance := 50, transaction_history := [] }
          { id := "r", balance := 10, transaction_history := [] }
          30 "margin call" "2024-01-01").2.1.transaction_history = [] ++ [t] ∧
       (transferFunds { id := "s", balance := 50, transaction_history := [] }
          { id := "r", balance := 10, transaction_history := [] }
          30 "margin call" "2024-01-01").2.2.transaction_history =
         [] ++ [t]) :=
  ⟨by decide, by decide,
   (transferFunds_spec { id := "s", balance := 50, transaction_history := [] }
      { id := "r", balance := 10, transaction_history := [] }
      30 "margin call" "2024-01-01").2.2 (by decide) (by decide)⟩

/-! ## Association-list and graph lemmas -/

lemma alookup_aset_self {κ ν : Type} [DecidableEq κ] :
    ∀ (l : List (κ × ν)) (k : κ) (v : ν), alookup (aset l k v) k = some v := by
  intro l k v
  induction l with
  | nil => simp [aset, alookup]
  | cons kv rest ih =>
    by_cases h : kv.1 = k
    · simp [aset, alookup, h]
    · simp [aset, alookup, h, ih]

lemma alookup_aset_ne {κ ν : Type} [DecidableEq κ] {k k' : κ}
    (hne : k ≠ k') :
    ∀ (l : List (κ × ν)) (v : ν), alookup (aset l k v) k' = alookup l k' := by
  intro l v
  induction l with
  | nil => simp [aset, alookup, hne]
  | cons kv rest ih =>
    by_cases h : kv.1 = k
    · simp [aset, alookup, h, hne]
    · simp only [aset, if_neg h, alookup, ih]

lemma alookup_adel_self {κ ν : Type} [DecidableEq κ] :
    ∀ (l : List (κ × ν)) (k : κ), alookup (adel l k) k = none := by
  intro l k
  induction l with
  | nil => rfl
  | cons kv rest ih =>
    by_cases h : kv.1 = k
    · simp [adel, List.filter_cons, h] at ih ⊢
      exact ih
    · simp [adel, List.filter_cons, h, alookup, ih] at ih ⊢
      exact ih

lemma alookup_adel_ne {κ ν : Type} [DecidableEq κ] {k k' : κ}
    (hne : k' ≠ k) :
    ∀ l : List (κ × ν), alookup (adel l k) k' = alookup l k' := by
  intro l
  induction l with
  | nil => rfl
  | cons kv rest ih =>
    by_cases h : kv.1 = k
    · have h2 : kv.1 ≠ k' := fun hk => hne (hk ▸ h)
      simp only [adel, List.filter_cons] at ih ⊢
      rw [if_neg (by simp [h]), ih]
      simp [alookup, h2]
    · simp only [adel, List.filter_cons, decide_not] at ih ⊢
      rw [if_pos (by simp [h])]
      by_cases h' : kv.1 = k' <;> simp [alookup, h', ih]

lemma mem_addEdgeToGraph_self (nodes : List String)
    (edges : List (String × String)) (s t : String) :
    (s, t) ∈ (addEdgeToGraph nodes edges s t).2 := by
  by_cases h : (s, t) ∈ edges <;> simp [addEdgeToGraph, h]

lemma mem_addEdgeToGraph_iff (nodes : List String)
    (edges : List (String × String)) (s t : String) (e : String × String) :
    e ∈ (addEdgeToGraph nodes edges s t).2 ↔ e ∈ edges ∨ e = (s, t) := by
  by_cases h : (s, t) ∈ edges
  · simp only [addEdgeToGraph, if_pos h]
    constructor
    · exact fun he => Or.inl he
    · rintro (he | rfl)
      · exact he
      · exact h
  · simp [addEdgeToGraph, if_neg h]

lemma addConnection_true_edges (net : InternalNetwork) (A B : String)
    (f p : ℚ) :
    (addConnection net A B true f p).edges =
      (addEdgeToGraph (addEdgeToGraph net.nodes net.edges A B).1
        (addEdgeToGraph net.nodes net.edges A B).2 B A).2 := rfl

lemma addConnection_true_freq (net : InternalNetwork) (A B : String)
    (f p : ℚ) :
    (addConnection net A B true f p).communication_frequency =
      aset (aset net.communication_frequency (A, B) f) (B, A) f := rfl

lemma addConnection_true_prio (net : InternalNetwork) (A B : String)
    (f p : ℚ) :
    (addConnection net A B true f p).communication_priority =
      aset (aset net.communication_priority (A, B) p) (B, A) p := rfl

lemma removeConnection_false_eq (net : InternalNetwork) (A B : String)
    (h : (A, B) ∈ net.edges) :
    removeConnection net A B false =
      { net with
        edges := net.edges.filter fun e => decide (e ≠ (A, B))
        communication_frequency := adel net.communication_frequency (A, B)
        communication_priority := adel net.communication_priority (A, B) } := by
  simp only [removeConnection]
  rw [if_pos h, if_neg (by simp)]

lemma removeConnection_true_eq (net : InternalNetwork) (A B : String)
    (hAB : (A, B) ∈ net.edges) (hBA : (B, A) ∈ net.edges)
    (hne : ((B, A) : String × String) ≠ (A, B)) :
    removeConnection net A B true =
      { net with
        edges := (net.edges.filter fun e => decide (e ≠ (A, B))).filter
          fun e => decide (e ≠ (B, A))
        communication_frequency :=
          adel (adel net.communication_frequency (A, B)) (B, A)
        communication_priority :=
          adel (adel net.communication_priority (A, B)) (B, A) } := by
  simp only [removeConnection]
  rw [if_pos hAB,
    if_pos ⟨by trivial, List.mem_filter.mpr ⟨hBA, by simp [hne]⟩⟩]

/-! ## Theorems about edge removal (frame effect) -/

/-- C8: after `add_connection(A, B, bidirectional=True)` followed by
`remove_connection(A, B, bidirectional=False)`, the `B → A` edge and its
frequency/priority metadata survive unchanged while the `A → B` edge and its
metadata are gone; both directions disappear only under an explicit
bidirectional removal. -/
theorem removeConnection_directional (net : InternalNetwork) (A B : String)
    (f p : ℚ) (hab : A ≠ B) :
    ((B, A) ∈ (removeConnection (addConnection net A B true f p)
        A B false).edges ∧
     alookup (removeConnection (addConnection net A B true f p)
        A B false).communication_frequency (B, A) = some f ∧
     alookup (removeConnection (addConnection net A B true f p)
        A B false).communication_priority (B, A) = some p ∧
     (A, B) ∉ (removeConnection (addConnection net A B true f p)
        A B false).edges ∧
     alookup (removeConnection (addConnection net A B true f p)
        A B false).communication_frequency (A, B) = none ∧
     alookup (removeConnection (addConnection net A B true f p)
        A B false).communication_priority (A, B) = none) ∧
    ((A, B) ∉ (removeConnection (addConnection net A B true f p)
        A B true).edges ∧
     (B, A) ∉ (removeConnection (addConnection net A B true f p)
        A B true).edges ∧
     alookup (removeConnection (addConnection net A B true f p)
        A B true).communication_frequency (A, B) = none ∧
     alookup (removeConnection (addConnection net A B true f p)
        A B true).communication_frequency (B, A) = none) := by
  have hpairs : ((B, A) : String × String) ≠ (A, B) := by
    intro h
    injection h with h1 h2
    exact hab h2
  have hAB1 : (A, B) ∈ (addConnection net A B true f p).edges := by
    rw [addConnection_true_edges, mem_addEdgeToGraph_iff]
    exact Or.inl (mem_addEdgeToGraph_self _ _ _ _)
  have hBA1 : (B, A) ∈ (addConnection net A B true f p).edges := by
    rw [addConnection_true_edges]
    exact mem_addEdgeToGraph_self _ _ _ _
  constructor
  · rw [removeConnection_false_eq _ A B hAB1]
    refine ⟨List.mem_filter.mpr ⟨hBA1, by simp [hpairs]⟩, ?_, ?_, ?_, ?_, ?_⟩
    · show alookup (adel (addConnection net A B true f p).communication_frequency
        (A, B)) (B, A) = some f
      rw [alookup_adel_ne hpairs, addConnection_true_freq]
      exact alookup_aset_self _ _ _
    · show alookup (adel (addConnection net A B true f p).communication_priority
        (A, B)) (B, A) = some p
      rw [alookup_adel_ne hpairs, addConnection_true_prio]
      exact alookup_aset_self _ _ _
    · intro hmem
      have := (List.mem_filter.mp hmem).2
      simp at this
    · exact alookup_adel_self _ _
    · exact alookup_adel_self _ _
  · rw [removeConnection_true_eq _ A B hAB1 hBA1 hpairs]
    refine ⟨?_, ?_, ?_, ?_⟩
    · intro hmem
      have := (List.mem_filter.mp (List.mem_filter.mp hmem).1).2
      simp at this
    · intro hmem
      have := (List.mem_filter.mp hmem).2
      simp at this
    · show alookup (adel (adel (addConnection net A B true f p).communication_frequency
        (A, B)) (B, A)) (A, B) = none
      rw [alookup_adel_ne hpairs.symm]
      exact alookup_adel_self _ _
    · exact alookup_adel_self _ _

/-- Witness for C8 on the empty network with nodes `"a"`, `"b"` and
metadata `2`, `3`. -/
theorem removeConnection_directional_witness :
    "a" ≠ "b" ∧
    (("b", "a") ∈ (removeConnection (addConnection emptyNetwork "a" "b" true 2 3)
        "a" "b" false).edges ∧
     alookup (removeConnection (addConnection emptyNetwork "a" "b" true 2 3)
        "a" "b" false).communication_frequency ("b", "a") = some 2 ∧
     alookup (removeConnection (addConnection emptyNetwork "a" "b" true 2 3)
        "a" "b" false).communication_priority ("b", "a") = some 3 ∧
     ("a", "b") ∉ (removeConnection (addConnection emptyNetwork "a" "b" true 2 3)
        "a" "b" false).edges ∧
     alookup (removeConnection (addConnection emptyNetwork "a" "b" true 2 3)
        "a" "b" false).communication_frequency ("a", "b") = none ∧
     alookup (removeConnection (addConnection emptyNetwork "a" "b" true 2 3)
        "a" "b" false).communication_priority ("a", "b") = none) ∧
    (("a", "b") ∉ (removeConnection (addConnection emptyNetwork "a" "b" true 2 3)
        "a" "b" true).edges ∧
     ("b", "a") ∉ (removeConnection (addConnection emptyNetwork "a" "b" true 2 3)
        "a" "b" true).edges ∧
     alookup (removeConnection (addConnection emptyNetwork "a" "b" true 2 3)
        "a" "b" true).communication_frequency ("a", "b") = none ∧
     alookup (removeConnection (addConnection emptyNetwork "a" "b" true 2 3)
        "a" "b" true).communication_frequency ("b", "a") = none) :=
  ⟨by decide,
   (removeConnection_directional emptyNetwork "a" "b" 2 3 (by decide)).1,
   (removeConnection_directional emptyNetwork "a" "b" 2 3 (by decide)).2⟩

/-! ## Theorems about communication recording -/

/-- One call of `record_communication` on a tracked edge: the history grows
by exactly the new record and the frequency is set to
`min(1.0, old + 0.01)`. -/
lemma recordCommunication_eq (net : InternalNetwork) (s t : String)
    (m : Message) (f : ℚ)
    (hf : alookup net.communication_frequency (s, t) = some f) :
    recordCommunication net s t m =
      { net with
        communication_history := net.communication_history ++
          [{ source := s, target := t, message := m,
             timestamp := m.timestamp.getD "" }]
        communication_frequency :=
          aset net.communication_frequency (s, t) (min 1 (f + 1/100)) } := by
  simp only [recordCommunication]
  rw [hf]

/-- Iterating `record_communication` over a list of messages on a tracked
edge: the history grows by one record per call and the frequency stays a
tracked value in `[0, 1]`, never decreasing. -/
lemma recordCommunication_foldl (s t : String) :
    ∀ (ms : List Message) (net : InternalNetwork) (f : ℚ),
      alookup net.communication_frequency (s, t) = some f →
      0 ≤ f → f ≤ 1 →
      ((ms.foldl (fun n m => recordCommunication n s t m)
          net).communication_history.length =
        net.communication_history.length + ms.length) ∧
      ∃ g, alookup (ms.foldl (fun n m => recordCommunication n s t m)
            net).communication_frequency (s, t) = some g ∧
        0 ≤ g ∧ g ≤ 1 ∧ f ≤ g := by
  intro ms
  induction ms with
  | nil =>
    intro net f hf h0 h1
    exact ⟨rfl, f, hf, h0, h1, le_refl f⟩
  | cons m ms ih =>
    intro net f hf h0 h1
    have hone := recordCommunication_eq net s t m f hf
    have hf1 : alookup (recordCommunication net s t m).communication_frequency
        (s, t) = some (min 1 (f + 1/100)) := by
      rw [hone]
      exact alookup_aset_self _ _ _
    have h0' : 0 ≤ min 1 (f + 1/100) :=
      le_min (by norm_num) (by linarith)
    have h1' : min 1 (f + 1/100) ≤ 1 := min_le_left _ _
    have hmono : f ≤ min 1 (f + 1/100) := le_min h1 (by linarith)
    obtain ⟨hlen, g, hg, hg0, hg1, hgmono⟩ :=
      ih (recordCommunication net s t m) _ hf1 h0' h1'
    have hlen1 : (recordCommunication net s t m).communication_history.length =
        net.communication_history.length + 1 := by
      rw [hone]
      simp
    refine ⟨?_, g, hg, hg0, hg1, le_trans hmono hgmono⟩
    simp only [List.foldl_cons, List.length_cons]
    omega

/-- C7: on a tracked edge, every `record_communication` call appends exactly
one history record and sets the frequency to `min(1.0, old + 0.01)`; over any
finite sequence of calls the frequency stays within `[0, 1]` and never
decreases. -/
theorem recordCommunication_spec (net : InternalNetwork) (s t : String)
    (f : ℚ) (m : Message) (ms : List Message)
    (hf : alookup net.communication_frequency (s, t) = some f)
    (h0 : 0 ≤ f) (h1 : f ≤ 1) :
    (recordCommunication net s t m).communication_history =
        net.communication_history ++
          [{ source := s, target := t, message := m,
             timestamp := m.timestamp.getD "" }] ∧
    alookup (recordCommunication net s t m).communication_frequency (s, t) =
        some (min 1 (f + 1/100)) ∧
    0 ≤ min 1 (f + 1/100) ∧ min 1 (f + 1/100) ≤ 1 ∧ f ≤ min 1 (f + 1/100) ∧
    ((ms.foldl (fun n m' => recordCommunication n s t m')
        net).communication_history.length =
      net.communication_history.length + ms.length) ∧
    ∃ g, alookup (ms.foldl (fun n m' => recordCommunication n s t m')
          net).communication_frequency (s, t) = some g ∧
      0 ≤ g ∧ g ≤ 1 ∧ f ≤ g := by
  have hone := recordCommunication_eq net s t m f hf
  obtain ⟨hlen, hex⟩ := recordCommunication_foldl s t ms net f hf h0 h1
  refine ⟨?_, ?_, le_min (by norm_num) (by linarith), min_le_left _ _,
    le_min h1 (by linarith), hlen, hex⟩
  · rw [hone]
  · rw [hone]
    exact alookup_aset_self _ _ _

/-- Witness for C7 on the sample network's tracked edge `("a", "b")` with
frequency 1 and one recorded message. -/
theorem recordCommunication_spec_witness :
    alookup sampleNetwork.communication_frequency ("a", "b") = some 1 ∧
    (0 : ℚ) ≤ 1 ∧ (1 : ℚ) ≤ 1 ∧
    ((recordCommunication sampleNetwork "a" "b"
        sampleMessage).communication_history =
      sampleNetwork.communication_history ++
        [{ source := "a", target := "b", message := sampleMessage,
           timestamp := sampleMessage.timestamp.getD "" }] ∧
     alookup (recordCommunication sampleNetwork "a" "b"
        sampleMessage).communication_frequency ("a", "b") =
      some (min 1 (1 + 1/100)) ∧
     (0 : ℚ) ≤ min 1 (1 + 1/100) ∧ min 1 ((1 : ℚ) + 1/100) ≤ 1 ∧
     (1 : ℚ) ≤ min 1 (1 + 1/100) ∧
     (([sampleMessage].foldl
        (fun n m' => recordCommunication n "a" "b" m')
        sampleNetwork).communication_history.length =
      sampleNetwork.communication_history.length + [sampleMessage].length) ∧
     ∃ g, alookup ([sampleMessage].foldl
            (fun n m' => recordCommunication n "a" "b" m')
            sampleNetwork).communication_frequency ("a", "b") = some g ∧
        0 ≤ g ∧ g ≤ 1 ∧ 1 ≤ g) :=
  ⟨by decide, by decide, by decide,
   recordCommunication_spec sampleNetwork "a" "b" 1 sampleMessage
     [sampleMessage] (by decide) (by decide) (by decide)⟩

/-! ## Theorems about quote adjustment -/

/-- When no entry is an active quote for the security's symbol, the quote
list is unchanged. -/
lemma adjustMarketMaking_nomatch (security : Security) (now : String) :
    ∀ entries : List MarketMakingEntry,
      (∀ e ∈ entries,
        ¬(e.symbol = security.symbol ∧ e.status = "active")) →
      adjustMarketMaking entries security now = entries := by
  intro entries
  induction entries with
  | nil => intro _; rfl
  | cons e rest ih =>
    intro h
    simp only [adjustMarketMaking]
    rw [if_neg (h e (List.mem_cons_self e rest)),
      ih fun e' he' => h e' (List.mem_cons_of_mem e he')]

/-- The first active entry for the symbol is re-quoted with the
volatility-widened spread; everything else is untouched. -/
lemma adjustMarketMaking_first (security : Security) (now : String) :
    ∀ (pre : List MarketMakingEntry) (e : MarketMakingEntry)
      (post : List MarketMakingEntry),
      (∀ e' ∈ pre, ¬(e'.symbol = security.symbol ∧ e'.status = "active")) →
      e.symbol = security.symbol → e.status = "active" →
      adjustMarketMaking (pre ++ e :: post) security now =
        pre ++
          { e with
            bid := some (security.price.getD 0 -
              max (1/100) |security.price.getD 0 * (2/1000) *
                (1 + |security.price_change.getD 0| * 10)| / 2),
            ask := some (security.price.getD 0 +
              max (1/100) |security.price.getD 0 * (2/1000) *
                (1 + |security.price_change.getD 0| * 10)| / 2),
            last_update := some now } :: post := by
  intro pre
  induction pre with
  | nil =>
    intro e post _ he1 he2
    simp only [List.nil_append, adjustMarketMaking]
    rw [if_pos ⟨he1, he2⟩]
  | cons x pre' ih =>
    intro e post h he1 he2
    simp only [List.cons_append, adjustMarketMaking, List.append_eq]
    rw [if_neg (h x (List.mem_cons_self x pre')),
      ih e post (fun e' he' => h e' (List.mem_cons_of_mem x he')) he1 he2]

/-- C9: a market update re-quotes an actively quoted symbol with
`spread = max(0.01, |price * 0.002 * (1 + |priceChangePct| * 10)|)`,
`bid = price - spread/2`, `ask = price + spread/2` on the first active quote
entry, and is a no-op on the quote list when the symbol is not being
quoted. -/
theorem adjustMarketMaking_spec (entries : List MarketMakingEntry)
    (security : Security) (now : String) :
    ((∀ e ∈ entries,
        ¬(e.symbol = security.symbol ∧ e.status = "active")) →
      adjustMarketMaking entries security now = entries) ∧
    (∀ (pre : List MarketMakingEntry) (e : MarketMakingEntry)
        (post : List MarketMakingEntry),
      entries = pre ++ e :: post →
      (∀ e' ∈ pre, ¬(e'.symbol = security.symbol ∧ e'.status = "active")) →
      e.symbol = security.symbol → e.status = "active" →
      adjustMarketMaking entries security now =
        pre ++
          { e with
            bid := some (security.price.getD 0 -
              max (1/100) |security.price.getD 0 * (2/1000) *
                (1 + |security.price_change.getD 0| * 10)| / 2),
            ask := some (security.price.getD 0 +
              max (1/100) |security.price.getD 0 * (2/1000) *
                (1 + |security.price_change.getD 0| * 10)| / 2),
            last_update := some now } :: post) := by
  constructor
  · exact adjustMarketMaking_nomatch security now entries
  · intro pre e post heq hpre he1 he2
    rw [heq]
    exact adjustMarketMaking_first security now pre e post hpre he1 he2

/-- Witness for C9: the single active `"AAPL"` entry is re-quoted by an
`"AAPL"` market update. -/
theorem adjustMarketMaking_spec_witness :
    adjustMarketMaking [sampleEntry] sampleSecurity "t1" =
      [{ sampleEntry with
          bid := some (sampleSecurity.price.getD 0 -
            max (1/100) |sampleSecurity.price.getD 0 * (2/1000) *
              (1 + |sampleSecurity.price_change.getD 0| * 10)| / 2),
          ask := some (sampleSecurity.price.getD 0 +
            max (1/100) |sampleSecurity.price.getD 0 * (2/1000) *
              (1 + |sampleSecurity.price_change.getD 0| * 10)| / 2),
          last_update := some "t1" }] :=
  (adjustMarketMaking_spec [sampleEntry] sampleSecurity "t1").2
    [] sampleEntry [] rfl (by simp) rfl rfl

/-! ## Lemmas about the path search -/

lemma mem_successors (E : List (String × String)) (s v : String) :
    v ∈ successors E s ↔ (s, v) ∈ E := by
  simp only [successors, List.mem_map, List.mem_filter, decide_eq_true_eq]
  constructor
  · rintro ⟨e, ⟨he, rfl⟩, rfl⟩
    exact he
  · intro h
    exact ⟨(s, v), ⟨h, rfl⟩, rfl⟩

lemma firstSome_eq_some {α β : Type} (f : α → Option β) :
    ∀ (l : List α) (b : β), firstSome f l = some b → ∃ x ∈ l, f x = some b := by
  intro l
  induction l with
  | nil => intro b h; exact absurd h (by simp [firstSome])
  | cons x xs ih =>
    intro b h
    simp only [firstSome] at h
    cases hx : f x with
    | some c =>
      rw [hx] at h
      exact ⟨x, List.mem_cons_self x xs, hx.trans h⟩
    | none =>
      rw [hx] at h
      obtain ⟨y, hy, hfy⟩ := ih b h
      exact ⟨y, List.mem_cons_of_mem x hy, hfy⟩

lemma firstSome_isSome_of_mem {α β : Type} (f : α → Option β) :
    ∀ (l : List α) (x : α), x ∈ l → (f x).isSome = true →
      (firstSome f l).isSome = true := by
  intro l
  induction l with
  | nil => intro x hx; exact absurd hx (List.not_mem_nil x)
  | cons y ys ih =>
    intro x hx hfx
    simp only [firstSome]
    cases hy : f y with
    | some c => simp
    | none =>
      rcases List.mem_cons.mp hx with rfl | hx'
      · rw [hy] at hfx
        exact absurd hfx (by simp)
      · exact ih x hx' hfx

lemma findPath_sound (E : List (String × String)) (t : String) :
    ∀ (n : ℕ) (visited : List String) (s : String) (p : List String),
      findPath E n visited s t = some p → IsPathFrom E s t p := by
  intro n
  induction n with
  | zero => intro visited s p h; exact absurd h (by simp [findPath])
  | succ n ih =>
    intro visited s p h
    simp only [findPath] at h
    by_cases hst : s = t
    · rw [if_pos hst] at h
      obtain rfl : [s] = p := Option.some.inj h
      subst hst
      exact ⟨rfl, rfl, List.chain'_singleton s⟩
    · rw [if_neg hst] at h
      obtain ⟨v, hvmem, hv⟩ := firstSome_eq_some _ _ _ h
      obtain ⟨q, hq, rfl⟩ := Option.map_eq_some'.mp hv
      have hpath : IsPathFrom E v t q := ih (s :: visited) v q hq
      have hsv : (s, v) ∈ E :=
        (mem_successors E s v).mp (List.mem_filter.mp hvmem).1
      obtain ⟨hqh, hql, hqc⟩ := hpath
      cases q with
      | nil => exact absurd hqh (by simp)
      | cons w q2 =>
        obtain rfl : w = v := Option.some.inj hqh
        refine ⟨rfl, ?_, ?_⟩
        · rw [List.getLast?_cons_cons]
          exact hql
        · exact List.chain'_cons.mpr ⟨hsv, hqc⟩

lemma findPath_complete (E : List (String × String)) (t : String) :
    ∀ (n : ℕ) (visited : List String) (s : String) (p : List String),
      IsPathFrom E s t p → p.Nodup → (∀ x ∈ p, x ∉ visited) →
      p.length ≤ n → (findPath E n visited s t).isSome = true := by
  intro n
  induction n with
  | zero =>
    intro visited s p hpath _ _ hlen
    obtain rfl : p = [] :=
      List.eq_nil_of_length_eq_zero (Nat.le_zero.mp hlen)
    exact absurd hpath.1 (by simp)
  | succ n ih =>
    intro visited s p hpath hnd hvis hlen
    obtain ⟨hh, hl, hc⟩ := hpath
    cases p with
    | nil => exact absurd hh (by simp)
    | cons a rest =>
      have ha : s = a := (Option.some.inj hh).symm
      subst ha
      simp only [findPath]
      by_cases hst : s = t
      · rw [if_pos hst]
        simp
      · rw [if_neg hst]
        cases rest with
        | nil => exact absurd (Option.some.inj hl) hst
        | cons v rest2 =>
          obtain ⟨hsv, hc2⟩ := List.chain'_cons.mp hc
          have hvfilter : v ∈ (successors E s).filter
              fun w => decide (w ∉ visited) := by
            refine List.mem_filter.mpr ⟨(mem_successors E s v).mpr hsv, ?_⟩
            simp only [decide_eq_true_eq]
            exact hvis v (List.mem_cons_of_mem s (List.mem_cons_self v rest2))
          apply firstSome_isSome_of_mem _ _ v hvfilter
          rw [Option.isSome_map']
          apply ih (s :: visited) v (v :: rest2)
          · refine ⟨rfl, ?_, hc2⟩
            rw [List.getLast?_cons_cons] at hl
            exact hl
          · exact (List.nodup_cons.mp hnd).2
          · intro x hx
            intro hmem
            rcases List.mem_cons.mp hmem with rfl | hxv
            · exact (List.nodup_cons.mp hnd).1 hx
            · exact hvis x (List.mem_cons_of_mem s hx) hxv
          · exact Nat.le_of_succ_le_succ hlen

lemma not_nodup_decomp {α : Type} :
    ∀ l : List α, ¬ l.Nodup →
      ∃ (l1 : List α) (a : α) (l2 l3 : List α),
        l = l1 ++ a :: (l2 ++ a :: l3) := by
  intro l
  induction l with
  | nil => intro h; exact absurd List.nodup_nil h
  | cons x xs ih =>
    intro h
    by_cases hx : x ∈ xs
    · obtain ⟨l2, l3, rfl⟩ := List.append_of_mem hx
      exact ⟨[], x, l2, l3, rfl⟩
    · have hxs : ¬ xs.Nodup := fun hnd => h (List.nodup_cons.mpr ⟨hx, hnd⟩)
      obtain ⟨l1, a, l2, l3, rfl⟩ := ih hxs
      exact ⟨x :: l1, a, l2, l3, rfl⟩

lemma head?_append_cons {α : Type} (l1 : List α) (a : α) (X Y : List α) :
    (l1 ++ a :: X).head? = (l1 ++ a :: Y).head? := by
  cases l1 <;> simp

lemma isPathFrom_shorten (E : List (String × String)) (s t : String)
    (l1 : List String) (a : String) (l2 l3 : List String)
    (h : IsPathFrom E s t (l1 ++ a :: (l2 ++ a :: l3))) :
    IsPathFrom E s t (l1 ++ a :: l3) := by
  obtain ⟨hh, hl, hc⟩ := h
  refine ⟨?_, ?_, ?_⟩
  · rw [head?_append_cons l1 a l3 (l2 ++ a :: l3)]
    exact hh
  · rw [List.getLast?_append_cons l1 a l3]
    rw [List.getLast?_append_cons l1 a (l2 ++ a :: l3)] at hl
    have : (a :: (l2 ++ a :: l3)) = (a :: l2) ++ a :: l3 := by simp
    rw [this, List.getLast?_append_cons (a :: l2) a l3] at hl
    exact hl
  · obtain ⟨hc1, hc2⟩ := List.chain'_split.mp hc
    have : (a :: (l2 ++ a :: l3)) = (a :: l2) ++ a :: l3 := by simp
    rw [this] at hc2
    obtain ⟨_, hc3⟩ := List.chain'_split.mp hc2
    exact List.chain'_split.mpr ⟨hc1, hc3⟩

lemma exists_nodup_path (E : List (String × String)) (s t : String) :
    ∀ (N : ℕ) (p : List String), p.length ≤ N → IsPathFrom E s t p →
      ∃ q, IsPathFrom E s t q ∧ q.Nodup ∧ ∀ x ∈ q, x ∈ p := by
  intro N
  induction N with
  | zero =>
    intro p hlen hpath
    obtain rfl : p = [] :=
      List.eq_nil_of_length_eq_zero (Nat.le_zero.mp hlen)
    exact absurd hpath.1 (by simp)
  | succ N ih =>
    intro p hlen hpath
    by_cases hnd : p.Nodup
    · exact ⟨p, hpath, hnd, fun _ hx => hx⟩
    · obtain ⟨l1, a, l2, l3, rfl⟩ := not_nodup_decomp p hnd
      have hshort : IsPathFrom E s t (l1 ++ a :: l3) :=
        isPathFrom_shorten E s t l1 a l2 l3 hpath
      have hlt : (l1 ++ a :: l3).length ≤ N := by
        simp only [List.length_append, List.length_cons] at hlen ⊢
        omega
      obtain ⟨q, hq, hqnd, hsub⟩ := ih (l1 ++ a :: l3) hlt hshort
      refine ⟨q, hq, hqnd, fun x hx => ?_⟩
      have := hsub x hx
      simp only [List.mem_append, List.mem_cons] at this ⊢
      tauto

lemma chain'_mem_of_head? (E : List (String × String)) :
    ∀ (p : List String) (s : String), p.head? = some s →
      List.Chain' (fun a b => (a, b) ∈ E) p →
      ∀ x ∈ p, x = s ∨ ∃ a, (a, x) ∈ E := by
  intro p
  induction p with
  | nil => intro s _ _ x hx; exact absurd hx (List.not_mem_nil x)
  | cons y rest ih =>
    intro s hh hc x hx
    have hy : s = y := (Option.some.inj hh).symm
    subst hy
    rcases List.mem_cons.mp hx with rfl | hx'
    · exact Or.inl rfl
    · cases rest with
      | nil => exact absurd hx' (List.not_mem_nil x)
      | cons v rest2 =>
        obtain ⟨hsv, hc2⟩ := List.chain'_cons.mp hc
        rcases ih v rfl hc2 x hx' with rfl | hex
        · exact Or.inr ⟨s, hsv⟩
        · exact Or.inr hex

lemma path_subset_support (E : List (String × String)) (s t : String)
    (p : List String) (h : IsPathFrom E s t p) :
    ∀ x ∈ p, x ∈ nodeSupport E s := by
  intro x hx
  rcases chain'_mem_of_head? E p s h.1 h.2.2 x hx with rfl | ⟨a, ha⟩
  · exact List.mem_cons_self x _
  · refine List.mem_cons_of_mem s (List.mem_append.mpr (Or.inr ?_))
    exact List.mem_map.mpr ⟨(a, x), ha, rfl⟩

lemma nodup_length_le {α : Type} [DecidableEq α] (q l : List α)
    (hnd : q.Nodup) (hsub : ∀ x ∈ q, x ∈ l) : q.length ≤ l.length := by
  calc q.length = q.toFinset.card := (List.toFinset_card_of_nodup hnd).symm
    _ ≤ l.toFinset.card := Finset.card_le_card fun x hx =>
        List.mem_toFinset.mpr (hsub x (List.mem_toFinset.mp hx))
    _ ≤ l.length := List.toFinset_card_le l

lemma shortestPathSearch_isSome (E : List (String × String)) (s t : String)
    (h : Reachable E s t) : (shortestPathSearch E s t).isSome = true := by
  obtain ⟨p, hp⟩ := h
  obtain ⟨q, hq, hqnd, _⟩ :=
    exists_nodup_path E s t p.length p (le_refl _) hp
  have hsupport : ∀ x ∈ q, x ∈ nodeSupport E s :=
    path_subset_support E s t q hq
  have hlen : q.length ≤ (nodeSupport E s).length :=
    nodup_length_le q (nodeSupport E s) hqnd hsupport
  exact findPath_complete E t (nodeSupport E s).length [] s q hq hqnd
    (fun x _ => List.not_mem_nil x) hlen

/-! ## Theorems about communication paths -/

/-- C5 is false as stated: on a network where both `"a"` and `"b"` exist but
no directed path connects them, `get_communication_path` returns the plain
empty list — the `NetworkXNoPath` exception is caught internally — rather
than any structured `NoPathFound` rejection value. -/
theorem getCommunicationPath_disconnected_counterexample :
    getCommunicationPath disconnectedNetwork "a" "b" = ([] : List String) ∧
    "a" ∈ disconnectedNetwork.nodes ∧ "b" ∈ disconnectedNetwork.nodes ∧
    ¬ Reachable disconnectedNetwork.edges "a" "b" := by
  refine ⟨by decide, by decide, by decide, ?_⟩
  rintro ⟨p, hh, hl, hc⟩
  cases p with
  | nil => exact absurd hh (by simp)
  | cons a rest =>
    obtain rfl : a = "a" := Option.some.inj hh
    cases rest with
    | nil => exact absurd (Option.some.inj hl) (by decide)
    | cons b rest2 =>
      have hmem : ("a", b) ∈ disconnectedNetwork.edges :=
        (List.chain'_cons.mp hc).1
      simp [disconnectedNetwork, addDivision, emptyNetwork] at hmem

/-- C5 (amended): when both endpoints exist, `get_communication_path`
returns the empty list if no directed path connects them (the
`NetworkXNoPath` failure is swallowed into an ordinary `[]`, not surfaced
as a structured rejection), and an ordered node path from source to target
when one exists. -/
theorem getCommunicationPath_spec (net : InternalNetwork) (s t : String)
    (hs : s ∈ net.nodes) (ht : t ∈ net.nodes) :
    (¬ Reachable net.edges s t → getCommunicationPath net s t = []) ∧
    (Reachable net.edges s t →
      IsPathFrom net.edges s t (getCommunicationPath net s t)) := by
  unfold getCommunicationPath
  rw [if_pos ⟨hs, ht⟩]
  constructor
  · intro hnr
    cases hsp : shortestPathSearch net.edges s t with
    | none => rfl
    | some p =>
      exact absurd ⟨p, findPath_sound net.edges t _ [] s p hsp⟩ hnr
  · intro hr
    cases hsp : shortestPathSearch net.edges s t with
    | none =>
      have := shortestPathSearch_isSome net.edges s t hr
      rw [hsp] at this
      exact absurd this (by simp)
    | some p => exact findPath_sound net.edges t _ [] s p hsp

/-- Witness for C5 (amended) on the sample network, whose single edge
`a → b` makes `"b"` reachable from `"a"`. -/
theorem getCommunicationPath_spec_witness :
    "a" ∈ sampleNetwork.nodes ∧ "b" ∈ sampleNetwork.nodes ∧
    IsPathFrom sampleNetwork.edges "a" "b"
      (getCommunicationPath sampleNetwork "a" "b") :=
  ⟨by decide, by decide,
   (getCommunicationPath_spec sampleNetwork "a" "b" (by decide)
      (by decide)).2
     ⟨["a", "b"],
      show _ ∧ _ ∧ _ from
        ⟨rfl, rfl, List.chain'_cons.mpr ⟨by decide, List.chain'_singleton _⟩⟩⟩⟩

end Securities
